import Mathlib

/-!
Verification of the image-pipeline logic of `src/Final.py` (PhotoMaster).

The Python source is shallowly embedded: pure string/arithmetic code is
translated to Lean functions over `List Char` / `Nat` / `Int`; the PIL image
objects are modelled by a provenance-carrying free term algebra (`Decoded`)
whose constructors are exactly the PIL operations the source performs
(`convert`, `resize`, `paste`), with the observations `width`, `height`,
`hasAlpha` computed recursively; encoded byte strings are modelled by `Bytes`
(either empty, or undecodable, or a format-tagged encoding of a decoded
image).  Fallible Python functions return `Option`; a Python exception that
escapes a function is an `Except.error`.  The floating-point expression
`int(d * (0.8 * bg_area / fg_area) ** 0.5)` is embedded with exact real
semantics: it equals the integer square root of
`(4 * bg_area * d ^ 2) / (5 * fg_area)` (floor division), which is the
computable `scaledDim` below; the bracketing lemmas `intSqrt_le` and
`lt_succ_intSqrt` pin its meaning.
-/

namespace Final

/-! ### `convert_drive_link` (src/Final.py lines 13-18)

`re.search(r'/d/([^/]+)', link)` finds the leftmost position where the
literal `/d/` is followed by at least one character other than `/`, and
captures the maximal run of non-`/` characters there. -/

/-- Maximal run of characters before the first `/` — the greedy `[^/]+` tail. -/
def takeNonSlash : List Char → List Char
  | [] => []
  | c :: cs => if c = '/' then [] else c :: takeNonSlash cs

/-- Does the regex `/d/([^/]+)` match at the head of the list? -/
def isMatchHead (l : List Char) : Bool :=
  match l with
  | a :: b :: c :: d :: _ => a = '/' && b = 'd' && c = '/' && !(d = '/')
  | _ => false

/-- The capture group of a head match: the maximal non-`/` run after `/d/`. -/
def extractId (l : List Char) : List Char :=
  match l with
  | _ :: _ :: _ :: rest => takeNonSlash rest
  | _ => []

/-- Leftmost search for `/d/([^/]+)`, as `re.search` performs it. -/
def searchDrive : List Char → Option (List Char)
  | [] => none
  | a :: cs => if isMatchHead (a :: cs) then some (extractId (a :: cs)) else searchDrive cs

/-- The fixed direct-download URL head the source rewrites matches into. -/
def driveUrlBase : List Char := "https://drive.google.com/uc?export=download&id=".toList

/-- Embedding of `convert_drive_link` (src/Final.py lines 13-18). -/
def convert_drive_link (link : String) : String :=
  match searchDrive link.data with
  | some fid => String.mk (driveUrlBase ++ fid)
  | none => link

/-! ### Tabular `name` deduplication (src/Final.py lines 158-173 and 185-200)

The xlsx and csv branches run the identical loop; it is embedded once.  A
row's `name` cell is `Option String`: `none` is a NaN cell (`pd.isna`), and a
string whose `strip()` is empty also counts as blank. -/

/-- The whitespace characters `str.strip()` removes. -/
def isSpaceChar (c : Char) : Bool :=
  c = ' ' || c = '\t' || c = '\n' || c = '\r' || c = '\x0b' || c = '\x0c'

/-- Python `s.strip()`: drop whitespace from both ends. -/
def stripEnds (l : List Char) : List Char :=
  ((l.dropWhile isSpaceChar).reverse.dropWhile isSpaceChar).reverse

/-- Blank test `pd.isna(name) or name.strip() == ""`. -/
def isBlankName : Option String → Bool
  | none => true
  | some s => stripEnds s.data == []

/-- `f"empty_{empty_count}" if empty_count > 0 else "empty"`. -/
def emptyName (ec : Nat) : String :=
  if ec > 0 then "empty_" ++ toString ec else "empty"

/-- `f"{name}_{name_count[name]}" if name_count[name] > 0 else name`. -/
def mkUniq (name : String) (c : Nat) : String :=
  if c > 0 then name ++ "_" ++ toString c else name

/-- `name_count[name] += 1` on the defaultdict, as a function update. -/
def bump (cnt : String → Nat) (b : String) : String → Nat :=
  fun k => if k = b then cnt b + 1 else cnt k

/-- The dedup loop body of src/Final.py lines 162-172, threading the
`name_count` defaultdict and `empty_count` through the rows and emitting the
`unique_name` of each row in order. -/
def dedupLoop : (String → Nat) → Nat → List (Option String) → List String
  | _, _, [] => []
  | cnt, ec, row :: rest =>
    let name := if isBlankName row then emptyName ec else row.getD ""
    let ec' := if isBlankName row then ec + 1 else ec
    mkUniq name (cnt name) :: dedupLoop (bump cnt name) ec' rest

/-- The emitted names of one tabular batch (`name_count = defaultdict(int)`,
`empty_count = 0` at entry). -/
def dedupNames (rows : List (Option String)) : List String :=
  dedupLoop (fun _ => 0) 0 rows

/-! Reference decomposition of the loop, used to state what the emitted names
are: first the blank substitution, then the per-base occurrence counting. -/

/-- Blank cells replaced by the generated placeholder bases, in order. -/
def blankSubst : Nat → List (Option String) → List String
  | _, [] => []
  | ec, row :: rest =>
    (if isBlankName row then emptyName ec else row.getD "") ::
      blankSubst (if isBlankName row then ec + 1 else ec) rest

/-- Each base paired with the number of its earlier occurrences. -/
def countPairs : (String → Nat) → List String → List (String × Nat)
  | _, [] => []
  | cnt, b :: rest => (b, cnt b) :: countPairs (bump cnt b) rest

/-- Does the list start with the literal substring `/d/`? -/
def isDSlashHead (l : List Char) : Bool :=
  match l with
  | a :: b :: c :: _ => a = '/' && b = 'd' && c = '/'
  | _ => false

/-- Scan for the literal substring `/d/` anywhere in the list. -/
def hasDSlash : List Char → Bool
  | [] => false
  | a :: cs => isDSlashHead (a :: cs) || hasDSlash cs

/-! ### The PIL image model

Decoded images are a provenance-carrying term algebra: every PIL operation the
source performs is a constructor, and the observations PIL exposes (`width`,
`height`, the `RGBA` mode test) are computed recursively.  The model keeps two
color modes, `RGB` (`alpha = false`) and `RGBA` (`alpha = true`), which are
the only modes the source distinguishes. -/

inductive Fmt where
  | PNG
  | JPEG
deriving DecidableEq

inductive Decoded where
  /-- An original pixel source with identity, dimensions and mode. -/
  | src (id w h : Nat) (alpha : Bool)
  /-- `img.convert("RGBA")` / `img.convert("RGB")`. -/
  | convert (d : Decoded) (alpha : Bool)
  /-- `img.resize((w, h))`: a direct stretch to the target dimensions. -/
  | resize (d : Decoded) (w h : Nat)
  /-- `canvas.paste(fg, pos, mask)` on a copy of the canvas.  The source
  always passes a mask image (the third positional argument), so the model
  makes it a required field. -/
  | paste (canvas fg : Decoded) (pos : Int × Int) (mask : Decoded)
deriving DecidableEq

def width : Decoded → Nat
  | .src _ w _ _ => w
  | .convert d _ => width d
  | .resize _ w _ => w
  | .paste c _ _ _ => width c

def height : Decoded → Nat
  | .src _ _ h _ => h
  | .convert d _ => height d
  | .resize _ _ h => h
  | .paste c _ _ _ => height c

/-- `img.mode == 'RGBA'`. -/
def hasAlpha : Decoded → Bool
  | .src _ _ _ a => a
  | .convert _ a => a
  | .resize d _ _ => hasAlpha d
  | .paste c _ _ _ => hasAlpha c

/-- Encoded image bytes: the empty byte string (falsy in Python), a non-empty
but undecodable byte string (`Image.open` raises `UnidentifiedImageError`), or
a well-formed encoding of a decoded image with a format tag. -/
inductive Bytes where
  | empty
  | invalid
  | enc (fmt : Fmt) (img : Decoded)
deriving DecidableEq

/-- `Image.open(BytesIO(content))`: succeeds exactly on well-formed encodings. -/
def decodeBytes : Bytes → Option Decoded
  | .enc _ d => some d
  | _ => none

/-- Python truthiness of a `bytes` value: empty bytes are falsy. -/
def truthy : Bytes → Bool
  | .empty => false
  | _ => true

/-- Python truthiness of a `bytes`-or-`None` value. -/
def truthyOpt : Option Bytes → Bool
  | some b => truthy b
  | none => false

/-! ### Integer square root

`int(d * (0.8 * bg_area / fg_area) ** 0.5)` in exact real arithmetic is
`⌊√((4 * bg_area * d ^ 2) / (5 * fg_area))⌋`, and the floor of the square root
of a non-negative rational `q` is the integer square root of `⌊q⌋`.  `intSqrt`
computes that integer square root by a structurally recursive search, so that
the kernel can evaluate it; `intSqrt_le` and `lt_succ_intSqrt` prove it is
exactly the floor of the real square root. -/

/-- Integer square root by the digit-pair recursion `s(n) = 2 * s(n / 4)`
possibly plus one, with an explicit fuel so the recursion is structural (the
kernel can then evaluate it); `fuel` bounds the number of base-4 digits. -/
def intSqrtAux : Nat → Nat → Nat
  | 0, _ => 0
  | fuel + 1, n =>
    if n = 0 then 0
    else
      let r := 2 * intSqrtAux fuel (n / 4)
      if (r + 1) * (r + 1) ≤ n then r + 1 else r

def intSqrt (n : Nat) : Nat := intSqrtAux n n

/-! ### The pipeline stages (src/Final.py lines 21-86) -/

/-- A network response: status code and body. -/
structure Response where
  status : Nat
  content : Bytes
deriving DecidableEq

/-- Embedding of `download_image` (src/Final.py lines 21-25), with the network
fetch supplied as an oracle result. -/
def download_image (resp : Response) : Option Bytes :=
  if resp.status = 200 then some resp.content else none

/-- Embedding of `resize_image` (src/Final.py lines 28-38): decode, stretch to
`size`, flatten `RGBA` to `RGB`, always encode as JPEG; an undecodable input
returns `None`. -/
def resize_image (image_content : Bytes) (size : Nat × Nat) : Option Bytes :=
  match decodeBytes image_content with
  | none => none
  | some img =>
    let resized := Decoded.resize img size.1 size.2
    let flat := if hasAlpha resized then Decoded.convert resized false else resized
    some (Bytes.enc Fmt.JPEG flat)

/-- Embedding of `remove_background` (src/Final.py lines 41-50).  The
segmentation model is an oracle `seg` from decoded images to decoded cutouts;
the function is solely the decode/encode boundary plus failure translation. -/
def remove_background (seg : Decoded → Decoded) (image_content : Bytes) : Option Bytes :=
  match decodeBytes image_content with
  | none => none
  | some img => some (Bytes.enc Fmt.PNG (seg img))

/-- The dimension `int(d * (0.8 * bg_area / fg_area) ** 0.5)` of
src/Final.py lines 63-66 in exact real arithmetic, with `bg_area = 1024 *
1024 = 1048576` (the background was just resized to the canvas): the floor of
`d * sqrt(0.8 * 1048576 / (w * h))` is `intSqrt ((4 * 1048576 * d * d) / (5 *
(w * h)))`. -/
def scaledDim (d w h : Nat) : Nat :=
  intSqrt ((4 * 1048576 * d * d) / (5 * (w * h)))

/-- The foreground after the optional coverage rescale of src/Final.py lines
59-73 (the input is the already `RGBA`-converted foreground). -/
def fgAfter (fgD : Decoded) (resize_foreground : Bool) : Decoded :=
  let f := Decoded.convert fgD true
  if resize_foreground then
    Decoded.resize f (scaledDim (width f) (width f) (height f))
      (scaledDim (height f) (width f) (height f))
  else f

/-- The paste offset of src/Final.py line 78: Python `//` is floor division. -/
def pastePos (f : Decoded) : Int × Int :=
  (Int.fdiv (1024 - (width f : Int)) 2, Int.fdiv (1024 - (height f : Int)) 2)

/-- An uncaught Python exception escaping a stage.  The `Except PyErr` result
type keeps the exception-propagation channel explicit; whether any stage of
the modelled fragment can actually produce one is then a theorem
(`pipeline_drops_failed_stage` proves none can). -/
inductive PyErr where
  | uncaught
deriving DecidableEq

instance {ε α : Type} [DecidableEq ε] [DecidableEq α] : DecidableEq (Except ε α) :=
  fun x y =>
    match x, y with
    | .error a, .error b =>
      if h : a = b then .isTrue (by rw [h]) else .isFalse (by simp [h])
    | .ok a, .ok b =>
      if h : a = b then .isTrue (by rw [h]) else .isFalse (by simp [h])
    | .error _, .ok _ => .isFalse (by simp)
    | .ok _, .error _ => .isFalse (by simp)

/-- Embedding of `combine_with_background` (src/Final.py lines 53-86).  The
foreground argument is `Option Bytes` because the orchestrator can pass the
`None` of a failed earlier stage; CPython's `BytesIO(None)` is an empty
buffer, so `Image.open` raises `UnidentifiedImageError`, which this very
function catches — a `None` foreground therefore behaves exactly like
undecodable bytes and yields `(None, None)` rather than an escaping
exception. -/
def combine_with_background (foreground_content : Option Bytes)
    (background_content : Bytes) (resize_foreground : Bool) :
    Except PyErr (Option Bytes × Option (Nat × Nat)) :=
  match foreground_content with
  | none => .ok (none, none)
  | some fgBytes =>
    match decodeBytes fgBytes with
    | none => .ok (none, none)
    | some fgD =>
      match decodeBytes background_content with
      | none => .ok (none, none)
      | some bgD =>
        let background := Decoded.resize (Decoded.convert bgD true) 1024 1024
        let foreground := fgAfter fgD resize_foreground
        let dimensions := (width foreground, height foreground)
        let position := pastePos foreground
        let combined := Decoded.paste background foreground position foreground
        .ok (some (Bytes.enc Fmt.PNG combined), some dimensions)

/-! ### The orchestrator `download_all_images_as_zip` (src/Final.py 89-117) -/

/-- One batch item source: a spreadsheet link (a string URL), inline bytes, or
an uploaded file object to be `.read()`. -/
inductive Source where
  | url (link : String)
  | raw (content : Bytes)
  | file (content : Bytes)
deriving DecidableEq

/-- The keyword parameters of `download_all_images_as_zip`. -/
structure Options where
  remove_bg : Bool
  add_bg : Bool
  bg_image : Option Bytes
  resize_foreground : Bool
deriving DecidableEq

/-- `"banner" in name.lower()` — `leadsWith p l` is `l.startswith(p)` and
`containsSub` scans every suffix. -/
def leadsWith : List Char → List Char → Bool
  | [], _ => true
  | _ :: _, [] => false
  | p :: ps, c :: cs => p = c && leadsWith ps cs

def containsSub (pat : List Char) : List Char → Bool
  | [] => leadsWith pat []
  | c :: cs => leadsWith pat (c :: cs) || containsSub pat cs

/-- `(1290, 789) if "banner" in name.lower() else (1024, 1024)`
(src/Final.py line 106). -/
def sizeFor (name : String) : Nat × Nat :=
  if containsSub "banner".toList (name.data.map Char.toLower) then (1290, 789)
  else (1024, 1024)

/-- `name.rsplit('.', 1)[0]`: everything before the last dot, or the whole
name when it has no dot. -/
def rsplitStem (l : List Char) : List Char :=
  match l.reverse.dropWhile (fun c => !(c = '.')) with
  | [] => l
  | _ :: rest => rest.reverse

/-- The archive entry key `f"{name.rsplit('.', 1)[0]}.{ext}"`. -/
def entryName (name ext : String) : String :=
  String.mk (rsplitStem name.data ++ '.' :: ext.data)

/-- The per-item body of the orchestrator loop (src/Final.py lines 92-115).
`net` is the network oracle behind `requests.get`, `seg` the segmentation
oracle, and `resize_fg` the module-level `resize_fg` checkbox variable that
line 111 reads instead of the function's own `resize_foreground` parameter.
Returns the archive entry written for the item, `none` when the item is
silently dropped, or the uncaught exception. -/
def processItem (net : String → Response) (seg : Decoded → Decoded)
    (resize_fg : Bool) (opts : Options) (item : String × Source) :
    Except PyErr (Option (String × Bytes)) :=
  let image_content : Option Bytes :=
    match item.2 with
    | .url link => download_image (net (convert_drive_link link))
    | .raw b => some b
    | .file b => some b
  match image_content with
  | none => .ok none
  | some b =>
    if truthy b then
      let step1 : Option Bytes × String :=
        if opts.remove_bg then (remove_background seg b, "png")
        else (resize_image b (sizeFor item.1), "png")
      if opts.add_bg && truthyOpt opts.bg_image then
        match combine_with_background step1.1 (opts.bg_image.getD Bytes.empty) resize_fg with
        | .error e => .error e
        | .ok (p2, _dims) =>
          match p2 with
          | some pp =>
            if truthy pp then .ok (some (entryName item.1 "png", pp)) else .ok none
          | none => .ok none
      else
        match step1.1 with
        | some pp =>
          if truthy pp then .ok (some (entryName item.1 step1.2, pp)) else .ok none
        | none => .ok none
    else .ok none

/-- The foreground arguments the orchestrator passes to
`combine_with_background` while processing one item: the same control flow as
`processItem`, projected onto the compositor call site (src/Final.py line
111), so that an invocation of the compositor on the absent value of a failed
earlier stage is observable. -/
def combineCallArgs (net : String → Response) (seg : Decoded → Decoded)
    (opts : Options) (item : String × Source) : List (Option Bytes) :=
  let image_content : Option Bytes :=
    match item.2 with
    | .url link => download_image (net (convert_drive_link link))
    | .raw b => some b
    | .file b => some b
  match image_content with
  | none => []
  | some b =>
    if truthy b then
      let step1 : Option Bytes × String :=
        if opts.remove_bg then (remove_background seg b, "png")
        else (resize_image b (sizeFor item.1), "png")
      if opts.add_bg && truthyOpt opts.bg_image then [step1.1] else []
    else []

/-- Embedding of `download_all_images_as_zip` (src/Final.py lines 89-117): the
archive is the ordered list of written `(entry key, bytes)` pairs; an uncaught
exception from any item aborts the whole call. -/
def download_all_images_as_zip (net : String → Response) (seg : Decoded → Decoded)
    (resize_fg : Bool) (images_info : List (String × Source)) (opts : Options) :
    Except PyErr (List (String × Bytes)) :=
  match images_info with
  | [] => .ok []
  | item :: rest =>
    match processItem net seg resize_fg opts item with
    | .error e => .error e
    | .ok none => download_all_images_as_zip net seg resize_fg rest opts
    | .ok (some entry) =>
      match download_all_images_as_zip net seg resize_fg rest opts with
      | .error e => .error e
      | .ok entries => .ok (entry :: entries)

/-- Projection onto the `dimensions` component of a compositor result. -/
def getDims (r : Except PyErr (Option Bytes × Option (Nat × Nat))) : Option (Nat × Nat) :=
  match r with
  | .ok (_, d) => d
  | .error _ => none

/-! ## Theorems

### Support lemmas for the name-dedup loop and `convert_drive_link` -/

theorem dedupLoop_decomp (rows : List (Option String)) :
    ∀ cnt ec, dedupLoop cnt ec rows =
      (countPairs cnt (blankSubst ec rows)).map (fun p => mkUniq p.1 p.2) := by
  induction rows with
  | nil => intro cnt ec; rfl
  | cons row rest ih =>
    intro cnt ec
    simp only [dedupLoop, blankSubst, countPairs, List.map_cons]
    exact congrArg _ (ih _ _)

theorem mem_countPairs_le {p : String × Nat} :
    ∀ {cnt : String → Nat} {bs : List String}, p ∈ countPairs cnt bs → cnt p.1 ≤ p.2 := by
  intro cnt bs
  induction bs generalizing cnt with
  | nil => intro h; simp [countPairs] at h
  | cons b rest ih =>
    intro h
    rcases List.mem_cons.1 h with h | h
    · subst h; simp
    · have := ih h
      by_cases hb : p.1 = b
      · calc cnt p.1 ≤ cnt p.1 + 1 := Nat.le_succ _
          _ = bump cnt b p.1 := by simp [bump, hb]
          _ ≤ p.2 := this
      · calc cnt p.1 = bump cnt b p.1 := by simp [bump, hb]
          _ ≤ p.2 := this

theorem countPairs_nodup : ∀ (cnt : String → Nat) (bs : List String),
    (countPairs cnt bs).Nodup := by
  intro cnt bs
  induction bs generalizing cnt with
  | nil => exact List.nodup_nil
  | cons b rest ih =>
    refine List.nodup_cons.2 ⟨?_, ih _⟩
    intro hmem
    have h := mem_countPairs_le hmem
    simp [bump] at h

theorem intSqrtAux_spec : ∀ (fuel n : Nat), n < 4 ^ fuel →
    intSqrtAux fuel n * intSqrtAux fuel n ≤ n ∧
      n < (intSqrtAux fuel n + 1) * (intSqrtAux fuel n + 1) := by
  intro fuel
  induction fuel with
  | zero =>
    intro n hn
    have : n = 0 := by simpa using Nat.lt_one_iff.1 (by simpa using hn)
    subst this
    exact ⟨Nat.le_refl 0, by decide⟩
  | succ fuel ih =>
    intro n hn
    simp only [intSqrtAux]
    by_cases h0 : n = 0
    · subst h0; simp
    · rw [if_neg h0]
      have hm : n / 4 < 4 ^ fuel := by
        rw [Nat.div_lt_iff_lt_mul (by decide : 0 < 4)]
        calc n < 4 ^ (fuel + 1) := hn
          _ = 4 ^ fuel * 4 := by rw [Nat.pow_succ]
      obtain ⟨hA1, hA2⟩ := ih (n / 4) hm
      have h4 : n / 4 * 4 ≤ n := Nat.div_mul_le_self n 4
      have h5 : n < (n / 4 + 1) * 4 := by
        have hmod := Nat.div_add_mod n 4
        have hlt : n % 4 < 4 := Nat.mod_lt n (by decide)
        omega
      set A := intSqrtAux fuel (n / 4) with hA
      have hr1 : 2 * A * (2 * A) ≤ n := by nlinarith
      have hr2 : n < (2 * A + 2) * (2 * A + 2) := by nlinarith
      split
      · rename_i hle
        refine ⟨hle, ?_⟩
        have : 2 * A + 1 + 1 = 2 * A + 2 := by omega
        rw [this]; exact hr2
      · rename_i hlt
        exact ⟨hr1, Nat.lt_of_not_le hlt⟩

theorem lt_four_pow (n : Nat) : n < 4 ^ n := by
  induction n with
  | zero => decide
  | succ n ih =>
    calc n + 1 ≤ 4 ^ n := ih
      _ < 4 ^ n * 4 := by
        have : 0 < 4 ^ n := Nat.pos_pow_of_pos n (by decide)
        omega
      _ = 4 ^ (n + 1) := by rw [Nat.pow_succ]

theorem intSqrt_le (n : Nat) : intSqrt n * intSqrt n ≤ n :=
  (intSqrtAux_spec n n (lt_four_pow n)).1

theorem lt_succ_intSqrt (n : Nat) : n < (intSqrt n + 1) * (intSqrt n + 1) :=
  (intSqrtAux_spec n n (lt_four_pow n)).2

theorem slash_not_mem_takeNonSlash : ∀ l : List Char, '/' ∉ takeNonSlash l := by
  intro l
  induction l with
  | nil => simp [takeNonSlash]
  | cons c cs ih =>
    simp only [takeNonSlash]
    split
    · simp
    · rename_i hne
      intro h
      rcases List.mem_cons.1 h with h | h
      · exact hne h.symm
      · exact ih h

theorem slash_not_mem_extractId (l : List Char) : '/' ∉ extractId l := by
  match l with
  | [] => simp [extractId]
  | [_] => simp [extractId]
  | [_, _] => simp [extractId]
  | _ :: _ :: _ :: rest => exact slash_not_mem_takeNonSlash rest

theorem slash_not_mem_searchDrive :
    ∀ {l fid : List Char}, searchDrive l = some fid → '/' ∉ fid := by
  intro l
  induction l with
  | nil => intro fid h; simp [searchDrive] at h
  | cons a cs ih =>
    intro fid h
    simp only [searchDrive] at h
    split at h
    · cases h; exact slash_not_mem_extractId _
    · exact ih h

theorem isMatchHead_iff (l : List Char) :
    isMatchHead l = true ↔ ∃ d rest, l = '/' :: 'd' :: '/' :: d :: rest ∧ d ≠ '/' := by
  rcases l with _ | ⟨a, _ | ⟨b, _ | ⟨c, _ | ⟨d, rest⟩⟩⟩⟩ <;> simp [isMatchHead]
  aesop

theorem searchDrive_none_of_noSlash : ∀ {l : List Char}, '/' ∉ l → searchDrive l = none := by
  intro l
  induction l with
  | nil => intro _; rfl
  | cons a cs ih =>
    intro h
    have hhead : isMatchHead (a :: cs) = false := by
      by_contra hm
      rcases (isMatchHead_iff _).1 (Bool.of_not_eq_false hm) with ⟨d, rest, heq, _⟩
      have : a = '/' := by injection heq
      exact h (this ▸ List.mem_cons_self a cs)
    simp only [searchDrive, hhead, Bool.false_eq_true, if_false]
    exact ih fun hm => h (List.mem_cons_of_mem a hm)

theorem searchDrive_append_none :
    ∀ (l₁ : List Char) {fid : List Char}, '/' ∉ fid → hasDSlash l₁ = false →
      searchDrive (l₁ ++ fid) = none := by
  intro l₁
  induction l₁ with
  | nil => intro fid hfid _; exact searchDrive_none_of_noSlash hfid
  | cons a cs ih =>
    intro fid hfid h₁
    have h₁' := h₁
    simp only [hasDSlash, Bool.or_eq_false_iff] at h₁'
    have hhead : isMatchHead (a :: (cs ++ fid)) = false := by
      by_contra hm
      rcases (isMatchHead_iff _).1 (Bool.of_not_eq_false hm) with ⟨d, rest, heq, hd⟩
      rcases cs with _ | ⟨b, _ | ⟨c, cs₃⟩⟩
      · -- the whole `/d/` tail would sit inside the slash-free capture
        simp only [List.nil_append, List.cons.injEq] at heq
        obtain ⟨-, hfid'⟩ := heq
        exact hfid (hfid' ▸ List.mem_cons_of_mem _ (List.mem_cons_self _ _))
      · simp only [List.cons_append, List.nil_append, List.cons.injEq] at heq
        obtain ⟨-, -, hfid'⟩ := heq
        exact hfid (hfid' ▸ List.mem_cons_self _ _)
      · simp only [List.cons_append, List.cons.injEq] at heq
        obtain ⟨ha, hb, hc, -⟩ := heq
        have : isDSlashHead (a :: b :: c :: cs₃) = true := by
          simp [isDSlashHead, ha, hb, hc]
        simp [this] at h₁'
    have hstep : searchDrive ((a :: cs) ++ fid) = searchDrive (cs ++ fid) := by
      rw [List.cons_append]
      simp only [searchDrive, hhead, Bool.false_eq_true, if_false]
    rw [hstep]
    exact ih hfid h₁'.2

theorem hasDSlash_driveUrlBase : hasDSlash driveUrlBase = false := by decide

/-- C10: `convert_drive_link` is idempotent: a rewritten link contains no
further `/d/<id>` segment, and a non-matching link passes through unchanged. -/
theorem convert_drive_link_idem (link : String) :
    convert_drive_link (convert_drive_link link) = convert_drive_link link := by
  unfold convert_drive_link
  cases hs : searchDrive link.data with
  | none => simp [hs]
  | some fid =>
    have h1 : '/' ∉ fid := slash_not_mem_searchDrive hs
    have h2 : searchDrive (String.mk (driveUrlBase ++ fid)).data = none :=
      searchDrive_append_none driveUrlBase h1 hasDSlash_driveUrlBase
    simp [h2]


/-! ### Bracketing the coverage rescale -/

/-- `scaledDim d w h` is exactly `⌊d * sqrt(0.8 * 1048576 / (w * h))⌋`:
squared and cleared of denominators, it is bracketed by the exact value. -/
theorem scaledDim_bracket (d w h : Nat) (hwh : 0 < w * h) :
    5 * (w * h) * (scaledDim d w h * scaledDim d w h) ≤ 4 * 1048576 * d * d ∧
      4 * 1048576 * d * d < 5 * (w * h) * ((scaledDim d w h + 1) * (scaledDim d w h + 1)) := by
  have hD0 : 0 < 5 * (w * h) := by positivity
  set N := 4 * 1048576 * d * d with hN
  set D := 5 * (w * h) with hD
  have h1 : intSqrt (N / D) * intSqrt (N / D) ≤ N / D := intSqrt_le _
  have h2 : N / D < (intSqrt (N / D) + 1) * (intSqrt (N / D) + 1) := lt_succ_intSqrt _
  have h3 : D * (N / D) ≤ N := Nat.le.intro (Nat.div_add_mod N D)
  have h4 : N < D * (N / D + 1) := by
    have hm : N % D < D := Nat.mod_lt N hD0
    calc N = D * (N / D) + N % D := (Nat.div_add_mod N D).symm
      _ < D * (N / D) + D := Nat.add_lt_add_left hm _
      _ = D * (N / D + 1) := by ring
  have hs : scaledDim d w h = intSqrt (N / D) := rfl
  constructor
  · calc D * (scaledDim d w h * scaledDim d w h)
        ≤ D * (N / D) := by rw [hs]; exact Nat.mul_le_mul_left D h1
      _ ≤ N := h3
  · calc N < D * (N / D + 1) := h4
      _ ≤ D * ((scaledDim d w h + 1) * (scaledDim d w h + 1)) := by
            rw [hs]; exact Nat.mul_le_mul_left D (Nat.succ_le_of_lt h2)

/-- Area and aspect-ratio consequences of the rescale: the applied area is
within one pixel-row of `0.8 * 1024 * 1024` on each side, and the aspect
ratio is preserved to within one pixel. -/
theorem coverage_bounds (w h : Nat) (hw : 0 < w) (hh : 0 < h) :
    5 * (scaledDim w w h * scaledDim h w h) ≤ 4 * 1048576 ∧
      4 * 1048576 < 5 * ((scaledDim w w h + 1) * (scaledDim h w h + 1)) ∧
      scaledDim w w h * h < (scaledDim h w h + 1) * w ∧
      scaledDim h w h * w < (scaledDim w w h + 1) * h := by
  have hwh : 0 < w * h := by positivity
  obtain ⟨hw1, hw2⟩ := scaledDim_bracket w w h hwh
  obtain ⟨hh1, hh2⟩ := scaledDim_bracket h w h hwh
  set nw := scaledDim w w h with hnw
  set nh := scaledDim h w h with hnh
  have harea : 5 * (nw * nh) ≤ 4 * 1048576 := by
    have hmul : 5 * (w * h) * (nw * nw) * (5 * (w * h) * (nh * nh)) ≤
        4 * 1048576 * w * w * (4 * 1048576 * h * h) := Nat.mul_le_mul hw1 hh1
    have key : 5 * (nw * nh) * (5 * (nw * nh)) * ((w * h) * (w * h)) ≤
        4 * 1048576 * (4 * 1048576) * ((w * h) * (w * h)) := by
      calc 5 * (nw * nh) * (5 * (nw * nh)) * ((w * h) * (w * h))
          = 5 * (w * h) * (nw * nw) * (5 * (w * h) * (nh * nh)) := by ring
        _ ≤ 4 * 1048576 * w * w * (4 * 1048576 * h * h) := hmul
        _ = 4 * 1048576 * (4 * 1048576) * ((w * h) * (w * h)) := by ring
    have hsq : 5 * (nw * nh) * (5 * (nw * nh)) ≤ 4 * 1048576 * (4 * 1048576) :=
      Nat.le_of_mul_le_mul_right key (by positivity)
    by_contra hcon
    push_neg at hcon
    exact absurd hsq (Nat.not_le.2 (Nat.mul_self_lt_mul_self hcon))
  have harea2 : 4 * 1048576 < 5 * ((nw + 1) * (nh + 1)) := by
    have hmul : 4 * 1048576 * w * w * (4 * 1048576 * h * h) <
        5 * (w * h) * ((nw + 1) * (nw + 1)) * (5 * (w * h) * ((nh + 1) * (nh + 1))) :=
      mul_lt_mul'' hw2 hh2 (Nat.zero_le _) (Nat.zero_le _)
    have key : 4 * 1048576 * (4 * 1048576) * ((w * h) * (w * h)) <
        5 * ((nw + 1) * (nh + 1)) * (5 * ((nw + 1) * (nh + 1))) * ((w * h) * (w * h)) := by
      calc 4 * 1048576 * (4 * 1048576) * ((w * h) * (w * h))
          = 4 * 1048576 * w * w * (4 * 1048576 * h * h) := by ring
        _ < 5 * (w * h) * ((nw + 1) * (nw + 1)) * (5 * (w * h) * ((nh + 1) * (nh + 1))) := hmul
        _ = 5 * ((nw + 1) * (nh + 1)) * (5 * ((nw + 1) * (nh + 1))) * ((w * h) * (w * h)) := by
              ring
    have hsq : 4 * 1048576 * (4 * 1048576) <
        5 * ((nw + 1) * (nh + 1)) * (5 * ((nw + 1) * (nh + 1))) :=
      lt_of_mul_lt_mul_right key (Nat.zero_le _)
    by_contra hcon
    push_neg at hcon
    exact absurd hsq (Nat.not_lt.2 (Nat.mul_self_le_mul_self hcon))
  have haspect1 : nw * h < (nh + 1) * w := by
    have hA : 5 * (w * h) * (nw * h * (nw * h)) ≤ 4 * 1048576 * (w * w) * (h * h) := by
      calc 5 * (w * h) * (nw * h * (nw * h)) = 5 * (w * h) * (nw * nw) * (h * h) := by ring
        _ ≤ 4 * 1048576 * w * w * (h * h) :=
            Nat.mul_le_mul_right (h * h) hw1
        _ = 4 * 1048576 * (w * w) * (h * h) := by ring
    have hB : 4 * 1048576 * (w * w) * (h * h) <
        5 * (w * h) * ((nh + 1) * w * ((nh + 1) * w)) := by
      calc 4 * 1048576 * (w * w) * (h * h) = 4 * 1048576 * h * h * (w * w) := by ring
        _ < 5 * (w * h) * ((nh + 1) * (nh + 1)) * (w * w) :=
            mul_lt_mul_of_pos_right hh2 (by positivity)
        _ = 5 * (w * h) * ((nh + 1) * w * ((nh + 1) * w)) := by ring
    have := Nat.lt_of_mul_lt_mul_left (lt_of_le_of_lt hA hB)
    exact Nat.mul_self_lt_mul_self_iff.1 this
  have haspect2 : nh * w < (nw + 1) * h := by
    have hA : 5 * (w * h) * (nh * w * (nh * w)) ≤ 4 * 1048576 * (h * h) * (w * w) := by
      calc 5 * (w * h) * (nh * w * (nh * w)) = 5 * (w * h) * (nh * nh) * (w * w) := by ring
        _ ≤ 4 * 1048576 * h * h * (w * w) :=
            Nat.mul_le_mul_right (w * w) hh1
        _ = 4 * 1048576 * (h * h) * (w * w) := by ring
    have hB : 4 * 1048576 * (h * h) * (w * w) <
        5 * (w * h) * ((nw + 1) * h * ((nw + 1) * h)) := by
      calc 4 * 1048576 * (h * h) * (w * w) = 4 * 1048576 * w * w * (h * h) := by ring
        _ < 5 * (w * h) * ((nw + 1) * (nw + 1)) * (h * h) :=
            mul_lt_mul_of_pos_right hw2 (by positivity)
        _ = 5 * (w * h) * ((nw + 1) * h * ((nw + 1) * h)) := by ring
    have := Nat.lt_of_mul_lt_mul_left (lt_of_le_of_lt hA hB)
    exact Nat.mul_self_lt_mul_self_iff.1 this
  exact ⟨harea, harea2, haspect1, haspect2⟩

/-- The floor-division paste offset leaves margins that differ by at most one
pixel: `a - 2 * (a.fdiv 2)` is `0` or `1`. -/
theorem fdiv_two_margin (a : Int) :
    0 ≤ a - 2 * Int.fdiv a 2 ∧ a - 2 * Int.fdiv a 2 ≤ 1 := by
  rw [Int.fdiv_eq_ediv a (by decide : (0 : Int) ≤ 2)]
  have hdef : a % 2 = a - 2 * (a / 2) := Int.emod_def a 2
  have h1 : 0 ≤ a % 2 := Int.emod_nonneg a (by decide)
  have h2 : a % 2 < 2 := Int.emod_lt_of_pos a (by decide)
  omega

/-! ### Claim theorems -/

/-- C1 counterexample: on the batch with names `a`, `a_1`, `a` the dedup loop
emits `a`, `a_1`, `a_1` — the suffixed form of the repeated `a` collides with
the row named `a_1`, so the emitted names are not duplicate-free. -/
theorem dedup_demo_duplicate :
    dedupNames [some "a", some "a_1", some "a"] = ["a", "a_1", "a_1"] ∧
      ¬ (dedupNames [some "a", some "a_1", some "a"]).Nodup := by decide

/-- C1 (amended): the emitted names are exactly the first-seen-order blank
substitution (`empty`, `empty_1`, ...) followed by occurrence suffixing (the
n-th repeat of base `b` becomes `b_n`); the emitted list is duplicate-free
whenever that suffixing map is injective on the occurring (base, count)
pairs — which can fail when an input name itself has the form `b_n`, as the
counterexample shows. -/
theorem dedup_names_spec (rows : List (Option String))
    (hinj : ∀ p ∈ countPairs (fun _ => 0) (blankSubst 0 rows),
      ∀ q ∈ countPairs (fun _ => 0) (blankSubst 0 rows),
        mkUniq p.1 p.2 = mkUniq q.1 q.2 → p = q) :
    dedupNames rows =
      (countPairs (fun _ => 0) (blankSubst 0 rows)).map (fun p => mkUniq p.1 p.2) ∧
      (dedupNames rows).Nodup := by
  have hdec : dedupNames rows =
      (countPairs (fun _ => 0) (blankSubst 0 rows)).map (fun p => mkUniq p.1 p.2) :=
    dedupLoop_decomp rows (fun _ => 0) 0
  refine ⟨hdec, ?_⟩
  rw [hdec]
  exact List.Nodup.map_on hinj (countPairs_nodup _ _)

/-- C1 witness: the spec scenario `[("fig", _), ("", _), ("fig", _)]` emits
`fig`, `empty`, `fig_1`, and these are duplicate-free. -/
theorem dedup_names_spec_witness :
    dedupNames [some "fig", some "", some "fig"] = ["fig", "empty", "fig_1"] ∧
      (dedupNames [some "fig", some "", some "fig"]).Nodup :=
  ⟨by decide, (dedup_names_spec [some "fig", some "", some "fig"] (by decide)).2⟩

/-- C2 counterexample: a 4000 by 250 foreground is rescaled to 3663 by 228 —
the width exceeds the 1024 canvas, yet the applied dimensions are exactly the
uncorrected coverage-scaled values: no secondary `scaling_adjustment / 100`
correction exists in the code (the compositor has no such parameter). -/
theorem combine_overflow_uncorrected :
    getDims (combine_with_background (some (Bytes.enc Fmt.PNG (Decoded.src 0 4000 250 true)))
        (Bytes.enc Fmt.PNG (Decoded.src 1 500 500 false)) true) = some (3663, 228) ∧
      scaledDim 4000 4000 250 = 3663 ∧ scaledDim 250 4000 250 = 228 ∧ 1024 < 3663 := by
  decide

/-- C2 (amended): when `resize_foreground` is true the compositor always
applies the raw coverage-scaled dimensions, with no overflow check and no
secondary correction, even when they exceed the 1024-pixel canvas. -/
theorem combine_no_overflow_correction :
    ∀ (fgD bgD : Decoded) (f1 f2 : Fmt),
      getDims (combine_with_background (some (Bytes.enc f1 fgD)) (Bytes.enc f2 bgD) true) =
        some (scaledDim (width fgD) (width fgD) (height fgD),
              scaledDim (height fgD) (width fgD) (height fgD)) := by
  intro fgD bgD f1 f2
  rfl

/-- C3 counterexample: on an undecodable item with background removal and
add-background both enabled, `remove_background` returns the absence value
and the orchestrator nevertheless invokes the compositor on it (the call-site
projection records the `none` argument) — the claim that the compositor is
never invoked on the absent value is false; the item is then dropped without
an exception. -/
theorem compositor_invoked_on_absent_value :
    combineCallArgs (fun _ => ⟨200, Bytes.empty⟩) id
        ⟨true, true, some (Bytes.enc Fmt.PNG (Decoded.src 1 8 8 false)), true⟩
        ("a.jpg", Source.raw Bytes.invalid) = [none] ∧
      remove_background id Bytes.invalid = none ∧
      processItem (fun _ => ⟨200, Bytes.empty⟩) id true
          ⟨true, true, some (Bytes.enc Fmt.PNG (Decoded.src 1 8 8 false)), true⟩
          ("a.jpg", Source.raw Bytes.invalid) = .ok none := by decide

theorem combine_never_raises (fg : Option Bytes) (bg : Bytes) (r : Bool) :
    ∃ p, combine_with_background fg bg r = .ok p := by
  cases fg with
  | none => exact ⟨(none, none), rfl⟩
  | some fgBytes =>
    cases hf : decodeBytes fgBytes with
    | none => exact ⟨(none, none), by simp [combine_with_background, hf]⟩
    | some fgD =>
      cases hb : decodeBytes bg with
      | none => exact ⟨(none, none), by simp [combine_with_background, hf, hb]⟩
      | some bgD =>
        refine ⟨(some (Bytes.enc Fmt.PNG
            (Decoded.paste (Decoded.resize (Decoded.convert bgD true) 1024 1024)
              (fgAfter fgD r) (pastePos (fgAfter fgD r)) (fgAfter fgD r))),
          some (width (fgAfter fgD r), height (fgAfter fgD r))), ?_⟩
        simp only [combine_with_background, hf, hb]

theorem combine_not_error (fg : Option Bytes) (bg : Bytes) (r : Bool) (e : PyErr) :
    combine_with_background fg bg r = .error e → False := by
  intro h
  obtain ⟨p, hp⟩ := combine_never_raises fg bg r
  rw [hp] at h
  exact absurd h (by simp)

theorem processItem_never_raises (net : String → Response) (seg : Decoded → Decoded)
    (g : Bool) (opts : Options) (item : String × Source) :
    ∃ r, processItem net seg g opts item = .ok r := by
  cases hres : processItem net seg g opts item with
  | ok r => exact ⟨r, rfl⟩
  | error e =>
    exfalso
    simp only [processItem] at hres
    repeat
      first
        | exact Except.noConfusion hres
        | (rename_i heq; exact combine_not_error _ _ _ _ heq)
        | split at hres

theorem zip_never_raises (net : String → Response) (seg : Decoded → Decoded) (g : Bool)
    (items : List (String × Source)) (opts : Options) :
    ∃ entries, download_all_images_as_zip net seg g items opts = .ok entries := by
  induction items with
  | nil => exact ⟨[], rfl⟩
  | cons item rest ih =>
    obtain ⟨r, hr⟩ := processItem_never_raises net seg g opts item
    obtain ⟨entries, he⟩ := ih
    cases r with
    | none =>
      exact ⟨entries, by unfold download_all_images_as_zip; rw [hr]; exact he⟩
    | some entry =>
      exact ⟨entry :: entries, by unfold download_all_images_as_zip; rw [hr, he]⟩

/-- C3 (amended): the orchestrator checks the downloader's failure before
stage 2 and the final payload before emitting, but it does not check the
stage-2 result before the compositor — when add-background is set with a
background present, the compositor is invoked on the absent value (see the
counterexample).  The claim's propagation policy nevertheless holds: the
compositor absorbs the absent value exactly like undecodable bytes
(`BytesIO(None)` is an empty buffer and `Image.open`'s
`UnidentifiedImageError` is caught inside the stage), no stage failure ever
escapes the pipeline as an exception for any batch, and a failed item is
dropped while the batch continues. -/
theorem pipeline_drops_failed_stage :
    (∀ (bg : Bytes) (r : Bool), combine_with_background none bg r = .ok (none, none)) ∧
      (∀ (net : String → Response) (seg : Decoded → Decoded) (g : Bool)
          (items : List (String × Source)) (opts : Options),
        ∃ entries, download_all_images_as_zip net seg g items opts = .ok entries) ∧
      download_all_images_as_zip (fun _ => ⟨200, Bytes.empty⟩) id true
          [("a.jpg", Source.raw Bytes.invalid),
            ("b.png", Source.raw (Bytes.enc Fmt.PNG (Decoded.src 0 9 9 true)))]
          ⟨true, true, some (Bytes.enc Fmt.PNG (Decoded.src 1 8 8 false)), true⟩ =
        .ok [("b.png",
          Bytes.enc Fmt.PNG (Decoded.paste
            (Decoded.resize (Decoded.convert (Decoded.src 1 8 8 false) true) 1024 1024)
            (Decoded.resize (Decoded.convert (Decoded.src 0 9 9 true) true) 915 915)
            (54, 54)
            (Decoded.resize (Decoded.convert (Decoded.src 0 9 9 true) true) 915 915)))] :=
  ⟨fun _ _ => rfl, zip_never_raises, by decide⟩

/-- C4 counterexample: for a 2000 by 2000 foreground the applied dimensions
are 915 by 915 (`2000 * sqrt(0.8 * 1048576 / 4000000) = 915.89...`,
truncated), not the 905 by 905 the claim states. -/
theorem combine_2000_not_905 :
    getDims (combine_with_background (some (Bytes.enc Fmt.PNG (Decoded.src 0 2000 2000 true)))
        (Bytes.enc Fmt.PNG (Decoded.src 1 500 500 false)) true) = some (915, 915) ∧
      (some ((915 : Nat), (915 : Nat)) : Option (Nat × Nat)) ≠ some (905, 905) := by decide

/-- C4 (amended): with `resize_foreground` true the compositor applies the
uniform scale `sqrt(0.8 * 1024 * 1024 / (w * h))` to both dimensions with
truncation (`scaledDim`); the applied area is `0.8 * 1024 * 1024` to within
rounding (`5 * area ≤ 4 * 1048576 < 5 * (nw+1) * (nh+1)`) and the aspect
ratio is preserved to within one pixel; for a 2000 by 2000 foreground the
applied dimensions are 915 by 915, not 905 by 905. -/
theorem combine_coverage_scaling :
    (∀ (fgD bgD : Decoded) (f1 f2 : Fmt),
      getDims (combine_with_background (some (Bytes.enc f1 fgD)) (Bytes.enc f2 bgD) true) =
        some (scaledDim (width fgD) (width fgD) (height fgD),
              scaledDim (height fgD) (width fgD) (height fgD))) ∧
    (∀ w h : Nat, 0 < w → 0 < h →
      5 * (scaledDim w w h * scaledDim h w h) ≤ 4 * 1048576 ∧
        4 * 1048576 < 5 * ((scaledDim w w h + 1) * (scaledDim h w h + 1)) ∧
        scaledDim w w h * h < (scaledDim h w h + 1) * w ∧
        scaledDim h w h * w < (scaledDim w w h + 1) * h) ∧
    scaledDim 2000 2000 2000 = 915 :=
  ⟨fun _ _ _ _ => rfl, coverage_bounds, by decide⟩

/-- C4 witness: the coverage bounds instantiated at a 2 by 3 foreground. -/
theorem combine_coverage_scaling_witness :
    5 * (scaledDim 2 2 3 * scaledDim 3 2 3) ≤ 4 * 1048576 :=
  (combine_coverage_scaling.2.1 2 3 (by decide) (by decide)).1

/-- C5: for every decodable foreground/background pair the compositor pastes
the (possibly resized) foreground onto the 1024 by 1024 canvas at offset
`((1024 - fg_w) // 2, (1024 - fg_h) // 2)` (floor division), with the
foreground itself as the paste mask (its alpha channel is the blend mask),
and the left/right and top/bottom margins differ by at most one pixel, so
the applied bounding box is centered. -/
theorem combine_centering (fgb bgb : Bytes) (r : Bool) (fgD bgD : Decoded)
    (hf : decodeBytes fgb = some fgD) (hb : decodeBytes bgb = some bgD) :
    combine_with_background (some fgb) bgb r =
      .ok (some (Bytes.enc Fmt.PNG
            (Decoded.paste (Decoded.resize (Decoded.convert bgD true) 1024 1024)
              (fgAfter fgD r) (pastePos (fgAfter fgD r)) (fgAfter fgD r))),
          some (width (fgAfter fgD r), height (fgAfter fgD r))) ∧
      pastePos (fgAfter fgD r) =
        (Int.fdiv (1024 - (width (fgAfter fgD r) : Int)) 2,
         Int.fdiv (1024 - (height (fgAfter fgD r) : Int)) 2) ∧
      (0 ≤ (1024 - (width (fgAfter fgD r) : Int)) - 2 * (pastePos (fgAfter fgD r)).1 ∧
        (1024 - (width (fgAfter fgD r) : Int)) - 2 * (pastePos (fgAfter fgD r)).1 ≤ 1) ∧
      (0 ≤ (1024 - (height (fgAfter fgD r) : Int)) - 2 * (pastePos (fgAfter fgD r)).2 ∧
        (1024 - (height (fgAfter fgD r) : Int)) - 2 * (pastePos (fgAfter fgD r)).2 ≤ 1) := by
  refine ⟨?_, rfl, fdiv_two_margin _, fdiv_two_margin _⟩
  simp only [combine_with_background, hf, hb]

/-- C5 witness: the centering theorem applied to a 10 by 20 foreground on a
5 by 5 background. -/
theorem combine_centering_witness :
    combine_with_background (some (Bytes.enc Fmt.PNG (Decoded.src 0 10 20 true)))
        (Bytes.enc Fmt.JPEG (Decoded.src 1 5 5 false)) false =
      .ok (some (Bytes.enc Fmt.PNG
            (Decoded.paste
              (Decoded.resize (Decoded.convert (Decoded.src 1 5 5 false) true) 1024 1024)
              (fgAfter (Decoded.src 0 10 20 true) false)
              (pastePos (fgAfter (Decoded.src 0 10 20 true) false))
              (fgAfter (Decoded.src 0 10 20 true) false))),
          some (width (fgAfter (Decoded.src 0 10 20 true) false),
                height (fgAfter (Decoded.src 0 10 20 true) false))) :=
  (combine_centering (Bytes.enc Fmt.PNG (Decoded.src 0 10 20 true))
    (Bytes.enc Fmt.JPEG (Decoded.src 1 5 5 false)) false
    (Decoded.src 0 10 20 true) (Decoded.src 1 5 5 false) rfl rfl).1

/-- C6 counterexample: with add-background set and a background present the
compositing stage runs, yet the normalizer has already flattened the alpha
image to an opaque JPEG — the compositor input is the flattened lossy
encoding, not a lossless alpha-capable one. -/
theorem normalizer_flattens_despite_compositing :
    resize_image (Bytes.enc Fmt.PNG (Decoded.src 0 50 50 true)) (1024, 1024) =
      some (Bytes.enc Fmt.JPEG
        (Decoded.convert (Decoded.resize (Decoded.src 0 50 50 true) 1024 1024) false)) ∧
    hasAlpha (Decoded.convert (Decoded.resize (Decoded.src 0 50 50 true) 1024 1024) false)
      = false ∧
    download_all_images_as_zip (fun _ => ⟨200, Bytes.empty⟩) id false
        [("a.png", Source.raw (Bytes.enc Fmt.PNG (Decoded.src 0 50 50 true)))]
        ⟨false, true, some (Bytes.enc Fmt.PNG (Decoded.src 1 8 8 false)), false⟩ =
      .ok [("a.png",
        Bytes.enc Fmt.PNG (Decoded.paste
          (Decoded.resize (Decoded.convert (Decoded.src 1 8 8 false) true) 1024 1024)
          (Decoded.convert
            (Decoded.convert (Decoded.resize (Decoded.src 0 50 50 true) 1024 1024) false) true)
          (0, 0)
          (Decoded.convert
            (Decoded.convert (Decoded.resize (Decoded.src 0 50 50 true) 1024 1024) false)
            true)))] := by
  decide

/-- C6 (amended): the normalizer unconditionally flattens: every successful
`resize_image` output is a JPEG encoding of an image without alpha,
regardless of whether a compositing stage follows. -/
theorem normalizer_always_jpeg_flat (b : Bytes) (size : Nat × Nat) (out : Bytes)
    (h : resize_image b size = some out) :
    ∃ d, out = Bytes.enc Fmt.JPEG d ∧ hasAlpha d = false := by
  unfold resize_image at h
  rcases hdec : decodeBytes b with _ | img
  · rw [hdec] at h; exact absurd h (by simp)
  · rw [hdec] at h
    simp only [Option.some.injEq] at h
    refine ⟨if hasAlpha (Decoded.resize img size.1 size.2) then
        Decoded.convert (Decoded.resize img size.1 size.2) false
      else Decoded.resize img size.1 size.2, h.symm, ?_⟩
    by_cases ha : hasAlpha (Decoded.resize img size.1 size.2) = true
    · rw [if_pos ha]; rfl
    · have ha' : hasAlpha (Decoded.resize img size.1 size.2) = false := by
        simpa using ha
      rw [if_neg ha]
      exact ha'

/-- C6 witness: the flattening theorem applied to a concrete alpha image. -/
theorem normalizer_always_jpeg_flat_witness :
    ∃ d, Bytes.enc Fmt.JPEG
        (Decoded.convert (Decoded.resize (Decoded.src 0 9 9 true) 64 64) false) =
          Bytes.enc Fmt.JPEG d ∧
      hasAlpha d = false :=
  normalizer_always_jpeg_flat (Bytes.enc Fmt.PNG (Decoded.src 0 9 9 true)) (64, 64)
    (Bytes.enc Fmt.JPEG (Decoded.convert (Decoded.resize (Decoded.src 0 9 9 true) 64 64) false))
    (by decide)

/-- C7 counterexample: on the no-removal, no-compositing path the flattening
path is taken (the payload is a JPEG encoding), yet the emitted extension is
`png`, not `jpeg`/`jpg`. -/
theorem extension_png_on_flatten_path :
    download_all_images_as_zip (fun _ => ⟨200, Bytes.empty⟩) id false
        [("a.jpg", Source.raw (Bytes.enc Fmt.PNG (Decoded.src 0 10 10 true)))]
        ⟨false, false, none, false⟩ =
      .ok [("a.png", Bytes.enc Fmt.JPEG
        (Decoded.convert (Decoded.resize (Decoded.src 0 10 10 true) 1024 1024) false))] ∧
      ("a.png" : String) ≠ "a.jpeg" ∧ ("a.png" : String) ≠ "a.jpg" := by decide

/-- C7 (amended): on the orchestrator path without background removal every
emitted archive entry key carries the extension `png`, including the
no-compositing flattening path whose payload is JPEG-encoded. -/
theorem emitted_extension_always_png (net : String → Response) (seg : Decoded → Decoded)
    (g : Bool) (opts : Options) (name : String) (srcv : Source) (out : String × Bytes)
    (hrb : opts.remove_bg = false)
    (h : processItem net seg g opts (name, srcv) = .ok (some out)) :
    out.1 = entryName name "png" := by
  unfold processItem at h
  rw [hrb] at h
  simp only [Bool.false_eq_true, if_false] at h
  split at h
  · exact absurd h (by simp)
  · split at h
    · split at h
      · split at h
        · exact absurd h (by simp)
        · split at h
          · split at h
            · simp only [Except.ok.injEq, Option.some.injEq] at h
              rw [← h]
            · exact absurd h (by simp)
          · exact absurd h (by simp)
      · split at h
        · split at h
          · simp only [Except.ok.injEq, Option.some.injEq] at h
            rw [← h]
          · exact absurd h (by simp)
        · exact absurd h (by simp)
    · exact absurd h (by simp)

/-- C7 witness: the extension theorem applied to a concrete no-removal run. -/
theorem emitted_extension_always_png_witness :
    (("b.png", Bytes.enc Fmt.JPEG
        (Decoded.convert (Decoded.resize (Decoded.src 0 7 7 true) 1024 1024) false)) :
      String × Bytes).1 = entryName "b.jpg" "png" :=
  emitted_extension_always_png (fun _ => ⟨200, Bytes.empty⟩) id false
    ⟨false, false, none, false⟩ "b.jpg" (Source.raw (Bytes.enc Fmt.PNG (Decoded.src 0 7 7 true)))
    ("b.png", Bytes.enc Fmt.JPEG
      (Decoded.convert (Decoded.resize (Decoded.src 0 7 7 true) 1024 1024) false))
    rfl (by decide)

/-- C8 counterexample: a 204 response is success-class (2xx) and carries a
body, yet the downloader signals absence: success requires status exactly
200, not any 2xx-equivalent status. -/
theorem download_204_signals_absence :
    download_image ⟨204, Bytes.enc Fmt.PNG (Decoded.src 0 4 4 false)⟩ = none ∧
      200 ≤ 204 ∧ 204 < 300 := by decide

/-- C8 (amended): the downloader returns the response body exactly when the
status code equals 200; any other status (including other 2xx codes) yields
absence without an exception, and the orchestrator then drops the item. -/
theorem download_success_iff_200 (resp : Response) :
    (resp.status = 200 → download_image resp = some resp.content) ∧
      (resp.status ≠ 200 → download_image resp = none) ∧
      ∀ (net : String → Response) (seg : Decoded → Decoded) (g : Bool) (opts : Options)
        (name link : String),
        (net (convert_drive_link link)).status ≠ 200 →
        processItem net seg g opts (name, Source.url link) = .ok none := by
  refine ⟨fun hs => by simp [download_image, hs], fun hs => by simp [download_image, hs], ?_⟩
  intro net seg g opts name link hs
  unfold processItem
  simp [download_image, hs]

/-- C8 witness: a 404 response yields absence. -/
theorem download_success_iff_200_witness :
    download_image ⟨404, Bytes.empty⟩ = none :=
  (download_success_iff_200 ⟨404, Bytes.empty⟩).2.1 (by decide)

/-- C9: `download_all_images_as_zip` is not a function of its explicit
arguments: the compositing call at src/Final.py line 111 reads the
module-level `resize_fg` checkbox variable instead of the function's own
`resize_foreground` parameter, so two calls with identical arguments but
different module state produce different archives. -/
theorem zip_reads_module_resize_flag :
    download_all_images_as_zip (fun _ => ⟨404, Bytes.empty⟩) id true
        [("a.png", Source.raw (Bytes.enc Fmt.PNG (Decoded.src 0 64 64 true)))]
        ⟨false, true, some (Bytes.enc Fmt.PNG (Decoded.src 1 16 16 false)), false⟩ ≠
      download_all_images_as_zip (fun _ => ⟨404, Bytes.empty⟩) id false
        [("a.png", Source.raw (Bytes.enc Fmt.PNG (Decoded.src 0 64 64 true)))]
        ⟨false, true, some (Bytes.enc Fmt.PNG (Decoded.src 1 16 16 false)), false⟩ := by
  decide

end Final
